import Mathlib

/-!
Verification of the simple in-memory search service (`src/main.py`).

The embedding models Python strings as lists of Unicode codepoints
(`List Nat`), JSON values as the inductive `JVal`, and each operation of
the service (`extract_searchable_text`, `load_messages_into_index`,
`search_messages`, the `/search` handler and its pagination slice) as a
Lean function translated from the source.  Python's case mapping is
modelled per codepoint (uppercasing is a string-valued map, so that the
expanding mapping of U+00DF to SS is captured); the ASCII whitespace set
is modelled explicitly; JSON numbers are modelled as integers (floating
point is out of scope for the claims).
-/

namespace SimpleSearch

/-- Python strings as lists of Unicode codepoints. -/
abbrev Str := List Nat

/-- Codepoints of a Lean string literal, used only to write concrete inputs. -/
def pyChars (s : String) : Str := s.data.map Char.toNat

/-- The ASCII whitespace characters recognised by Python's `str.strip` and
`str.split`: space, tab, newline, carriage return, vertical tab, form feed. -/
def isSpace (c : Nat) : Bool :=
  c = 32 || c = 9 || c = 10 || c = 13 || c = 11 || c = 12

/-- Python `str.lower` on one codepoint.  The mapping is modelled on the
ASCII table; every codepoint at which a theorem of this development
evaluates it (ASCII, and U+00DF which Python's `lower` leaves fixed) is
mapped exactly as Python maps it.  Python additionally lowers further
non-ASCII codepoints, which no statement here evaluates. -/
def lowerChar (c : Nat) : Nat := if 65 ≤ c ∧ c ≤ 90 then c + 32 else c

/-- Python `str.upper` on one codepoint.  Python's full case mapping can
expand one codepoint to several, so the result is a string: ASCII letters
map to their uppercase and the sharp s U+00DF expands to `SS`.  These are
the only codepoints at which a theorem of this development evaluates the
mapping; the remaining Unicode table is not modelled (identity). -/
def upperChar (c : Nat) : List Nat :=
  if 97 ≤ c ∧ c ≤ 122 then [c - 32]
  else if c = 223 then [83, 83]
  else [c]

/-- The ASCII restriction of the uppercase mapping, used to factor proofs
about all-ASCII queries. -/
def asciiUpper (c : Nat) : Nat := if 97 ≤ c ∧ c ≤ 122 then c - 32 else c

/-- Python `s.lower()`. -/
def lowerStr (s : Str) : Str := s.map lowerChar

/-- Python `s.upper()`: the concatenation of the per-codepoint mappings. -/
def upperStr (s : Str) : Str := (s.map upperChar).flatten

/-- Remove trailing whitespace (the right half of Python `str.strip`). -/
def rstripWs (s : Str) : Str := (s.reverse.dropWhile isSpace).reverse

/-- Python `s.strip()`: remove leading and trailing whitespace. -/
def strip (s : Str) : Str := rstripWs (s.dropWhile isSpace)

/-- Python `s.split()` with no separator: split on runs of whitespace,
dropping empty pieces.  Structural recursion with one character of
lookahead decides whether the head extends the following token. -/
def splitWs : Str → List Str
  | [] => []
  | [c] => if isSpace c then [] else [[c]]
  | c :: d :: s =>
    if isSpace c then splitWs (d :: s)
    else if isSpace d then [c] :: splitWs (d :: s)
    else
      match splitWs (d :: s) with
      | [] => [[c]]
      | t :: ts => (c :: t) :: ts

/-- Rejoin tokens with single spaces (codepoint 32), as in the spec's
idempotence property. -/
def joinSp : List Str → Str
  | [] => []
  | [t] => t
  | t :: ts => t ++ 32 :: joinSp ts

/-- The canonicalised query `q = query.strip().lower()` computed by
`search_messages` in `src/main.py`. -/
def qCanonical (query : Str) : Str := lowerStr (strip query)

/-- The token list `[t for t in q.split() if t]` of `search_messages`. -/
def tokenize (query : Str) : List Str :=
  (splitWs (qCanonical query)).filter (fun t => t ≠ [])

/-- Python `t in s` on the first argument `s` (substring containment of `t`).
`startsWith s t` decides whether `t` is a prefix of `s`. -/
def startsWith : Str → Str → Bool
  | _, [] => true
  | [], _ :: _ => false
  | c :: s, d :: t => c == d && startsWith s t

/-- Python `t in s`: `t` occurs contiguously somewhere in `s`. -/
def hasSubstr : Str → Str → Bool
  | [], t => t.isEmpty
  | c :: s, t => startsWith (c :: s) t || hasSubstr s t

/-- Specification-side substring relation: `t` occurs contiguously in `s`. -/
def substrOf (t s : Str) : Prop := ∃ p r, s = p ++ t ++ r

/-- JSON values as parsed by `resp.json()` in `src/main.py`.  Numbers are
modelled as integers; object fields are an ordered association list. -/
inductive JVal where
  | null
  | bool (b : Bool)
  | num (n : Int)
  | str (s : Str)
  | arr (elems : List JVal)
  | obj (fields : List (Str × JVal))

/-- A raw record: a Python dict, i.e. a `JVal.obj` field list. -/
abbrev Raw := List (Str × JVal)

/-- Decimal digits of a positive natural, most significant first; the first
argument is recursion fuel (any fuel at least the digit count works). -/
def natCharsAux : Nat → Nat → Str
  | 0, _ => []
  | _ + 1, 0 => []
  | fuel + 1, n + 1 => natCharsAux fuel ((n + 1) / 10) ++ [48 + (n + 1) % 10]

/-- Decimal rendering of a natural number. -/
def natChars (n : Nat) : Str := if n = 0 then [48] else natCharsAux n n

/-- Python's decimal rendering of an integer (`str(int)`). -/
def intChars (i : Int) : Str :=
  if i < 0 then 45 :: natChars (-i).toNat else natChars i.toNat

mutual

/-- Python `repr(value)` for JSON-shaped values.  String escaping inside
`repr` is modelled as plain single quotes around the codepoints. -/
def pyRepr : JVal → Str
  | .null => pyChars ("None")
  | .bool true => pyChars ("True")
  | .bool false => pyChars ("False")
  | .num n => intChars n
  | .str s => 39 :: s ++ [39]
  | .arr es => 91 :: pyReprElems es ++ [93]
  | .obj fs => 123 :: pyReprFields fs ++ [125]

/-- Comma-separated `repr`s of list elements. -/
def pyReprElems : List JVal → Str
  | [] => []
  | [e] => pyRepr e
  | e :: es => pyRepr e ++ 44 :: 32 :: pyReprElems es

/-- Comma-separated `'key': repr(value)` renderings of dict fields. -/
def pyReprFields : List (Str × JVal) → Str
  | [] => []
  | [(k, v)] => 39 :: k ++ 39 :: 58 :: 32 :: pyRepr v
  | (k, v) :: fs => 39 :: k ++ 39 :: 58 :: 32 :: pyRepr v ++ 44 :: 32 :: pyReprFields fs

end

/-- Python `str(value)`: the value itself for strings, `repr` otherwise. -/
def pyStr : JVal → Str
  | .str s => s
  | v => pyRepr v

/-- Python dict lookup on an association list (keys are unique in a dict,
so first match suffices). -/
def dictLookup : List (Str × JVal) → Str → Option JVal
  | [], _ => none
  | (k, v) :: fs, key => if k = key then some v else dictLookup fs key

/-- Python `msg.get(key, dflt)`. -/
def pyGet (msg : Raw) (key : Str) (dflt : JVal) : JVal :=
  match dictLookup msg key with
  | some v => v
  | none => dflt

/-- The key `user_name`. -/
def unameKey : Str := pyChars ("user_name")

/-- The key `message`. -/
def messageKey : Str := pyChars ("message")

/-- The key `items`. -/
def itemsKey : Str := pyChars ("items")

/-- `extract_searchable_text` from `src/main.py`:
`" ".join([str(msg.get("user_name", "")), str(msg.get("message", ""))]).lower()`. -/
def extract_searchable_text (msg : Raw) : Str :=
  lowerStr (pyStr (pyGet msg unameKey (JVal.str []))
            ++ 32 :: pyStr (pyGet msg messageKey (JVal.str [])))

/-- One entry of `MESSAGE_INDEX`: the original record and its search text. -/
structure Entry where
  raw : Raw
  search_text : Str

/-- Errors raised during `load_messages_into_index`:
`fetchError` stands for `raise_for_status` failures and transport errors,
`shapeError` for the `RuntimeError` on an unexpected response shape
(carrying the rendered name of the top-level type), `attrError` for
calling `.get` on a non-dict element, `typeErr` for iterating a
non-iterable. -/
inductive PyErr where
  | fetchError
  | shapeError (tyName : Str)
  | attrError
  | typeErr

/-- Python's name of the type of a JSON-shaped value, as interpolated into
the `RuntimeError` message of `load_messages_into_index`. -/
def pyTypeName : JVal → Str
  | .null => pyChars ("NoneType")
  | .bool _ => pyChars ("bool")
  | .num _ => pyChars ("int")
  | .str _ => pyChars ("str")
  | .arr _ => pyChars ("list")
  | .obj _ => pyChars ("dict")

/-- The shape normalization of `load_messages_into_index`:
`if isinstance(data, list): raw_messages = data`
`elif isinstance(data, dict) and "items" in data: raw_messages = data["items"]`
`else: raise RuntimeError(...)`. -/
def normalize_messages (data : JVal) : Except PyErr JVal :=
  match data with
  | .arr _ => .ok data
  | .obj fields =>
    match dictLookup fields itemsKey with
    | some v => .ok v
    | none => .error (.shapeError (pyTypeName data))
  | _ => .error (.shapeError (pyTypeName data))

/-- Building one index entry from one element of `raw_messages`; Python
raises `AttributeError` when `.get` is called on a non-dict. -/
def toEntry : JVal → Except PyErr Entry
  | .obj fields => .ok ⟨fields, extract_searchable_text fields⟩
  | _ => .error .attrError

/-- Python iteration over `raw_messages`: lists yield their elements,
strings their one-character substrings, dicts their keys; anything else
raises `TypeError`. -/
def iterElems : JVal → Except PyErr (List JVal)
  | .arr xs => .ok xs
  | .str s => .ok (s.map (fun c => JVal.str [c]))
  | .obj fields => .ok (fields.map (fun kv => JVal.str kv.fst))
  | _ => .error .typeErr

/-- The body of `load_messages_into_index` after a successful fetch and
parse: normalize the shape, iterate the result, build the whole entry list
(the list comprehension); the first error raised propagates. -/
def build_from (data : JVal) : Except PyErr (List Entry) :=
  match normalize_messages data with
  | .error e => .error e
  | .ok raw =>
    match iterElems raw with
    | .error e => .error e
    | .ok msgs => msgs.mapM toEntry

/-- `load_messages_into_index` as a state transition on the global
`MESSAGE_INDEX`.  The first component is the index after the call, the
second the raised error, if any.  `fetched` is the outcome of the HTTP
GET and body parse; the global is assigned only once, after the whole
comprehension has been evaluated, so any error leaves `old` in place. -/
def load_messages_into_index (fetched : Except PyErr JVal) (old : List Entry) :
    List Entry × Option PyErr :=
  match fetched with
  | .error e => (old, some e)
  | .ok data =>
    match build_from data with
    | .error e => (old, some e)
    | .ok entries => (entries, none)

/-- `search_messages` from `src/main.py`: canonicalise the query, return
`[]` for an empty canonical query, otherwise keep, in index order, the
`raw` of every entry whose `search_text` contains all tokens. -/
def search_messages (index : List Entry) (query : Str) : List Raw :=
  if qCanonical query = [] then []
  else
    index.foldl
      (fun results entry =>
        if (tokenize query).all (fun t => hasSubstr entry.search_text t) then
          results ++ [entry.raw]
        else results)
      []

/-- The pagination slice `all_results[start:end]` of the `/search` handler,
with `start = (page - 1) * page_size` and `end = start + page_size`.
`page` is validated to be at least 1 before this point. -/
def paginate (results : List Raw) (page pageSize : Nat) : List Raw :=
  (results.drop ((page - 1) * pageSize)).take pageSize

/-- The body of a successful `/search` response. -/
structure SearchOk where
  query : Str
  total : Nat
  page : Nat
  pageSize : Nat
  items : List Raw

/-- The `/search` handler: 503 when the index is empty, otherwise a 200
body with the total of the full result set and the requested page. -/
def search_handler (index : List Entry) (q : Str) (page pageSize : Nat) :
    Except Nat SearchOk :=
  if index.isEmpty then .error 503
  else
    .ok ⟨q, (search_messages index q).length, page, pageSize,
         paginate (search_messages index q) page pageSize⟩

/-- Modelled from the spec's amended reading of shape normalization:
a sequence is used as-is; a mapping with an `items` key yields that
key's value (whether or not it is a sequence); everything else is a
`ShapeError` naming the top-level type. -/
def isSeq : JVal → Bool
  | .arr _ => true
  | _ => false

/-- The value of the `items` key when the input is a mapping that has one. -/
def itemsValue : JVal → Option JVal
  | .obj fields => dictLookup fields itemsKey
  | _ => none

/-- Shape normalization written from the amended specification text, to be
compared with `normalize_messages` (which is translated from the code). -/
def normalizeAmendedSpec (data : JVal) : Except PyErr JVal :=
  if isSeq data then .ok data
  else
    match itemsValue data with
    | some v => .ok v
    | none => .error (.shapeError (pyTypeName data))

/-- The one-record scenario from the specification, used as a concrete input. -/
def sophiaRaw : Raw :=
  [(unameKey, JVal.str (pyChars ("Sophia Al-Farsi"))),
   (messageKey, JVal.str (pyChars ("Please book a private jet to Paris for this Friday.")))]

/-- The index entry built from `sophiaRaw`. -/
def sophiaEntry : Entry := ⟨sophiaRaw, extract_searchable_text sophiaRaw⟩

/-- A one-entry index over the scenario record. -/
def sophiaIndex : List Entry := [sophiaEntry]

/-- A record with no `user_name` key, used as a concrete input. -/
def helloRaw : Raw := [(messageKey, JVal.str (pyChars ("Hello")))]

/-- A record whose `user_name` and `message` values are not strings. -/
def oddRaw : Raw := [(unameKey, JVal.num 42), (messageKey, JVal.null)]

/-- A record whose searchable text contains the sharp s U+00DF. -/
def eszRaw : Raw :=
  [(unameKey, JVal.str (pyChars ("Strauß"))),
   (messageKey, JVal.str (pyChars ("sends greetings")))]

/-- The index entry built from `eszRaw`. -/
def eszEntry : Entry := ⟨eszRaw, extract_searchable_text eszRaw⟩

/-- A one-entry index over the sharp-s record. -/
def eszIndex : List Entry := [eszEntry]

end SimpleSearch

namespace SimpleSearch
example : pyStr (JVal.num 42) = pyChars ("42") := by decide
example : pyStr (JVal.num (-7)) = pyChars ("-7") := by decide
example : extract_searchable_text [(unameKey, JVal.str (pyChars ("Ann"))), (messageKey, JVal.str (pyChars ("Hi THERE")))] = pyChars ("ann hi there") := by decide
example : search_messages sophiaIndex (pyChars ("paris")) = [sophiaRaw] := rfl
example : search_messages sophiaIndex (pyChars ("paris rome")) = [] := rfl
example : search_messages sophiaIndex (pyChars ("SOPHIA")) = [sophiaRaw] := rfl
example : search_messages sophiaIndex (pyChars ("")) = [] := rfl
example : search_handler sophiaIndex (pyChars ("paris")) 1 10 =
    Except.ok ⟨pyChars ("paris"), 1, 1, 10, [sophiaRaw]⟩ := rfl
example : search_handler [] (pyChars ("x")) 1 10 = Except.error 503 := rfl
example : splitWs (pyChars ("  a  bc d ")) = [pyChars ("a"), pyChars ("bc"), pyChars ("d")] := by decide
example : tokenize (pyChars (" Hello   WORLD ")) = [pyChars ("hello"), pyChars ("world")] := by decide
example : hasSubstr (pyChars ("hello world")) (pyChars ("lo w")) = true := by decide
example : hasSubstr (pyChars ("hello")) (pyChars ("")) = true := by decide
example : hasSubstr (pyChars ("")) (pyChars ("x")) = false := by decide
example : strip (pyChars ("  ab  ")) = pyChars ("ab") := by decide
end SimpleSearch

namespace SimpleSearch

theorem lowerChar_asciiUpper (c : Nat) : lowerChar (asciiUpper c) = lowerChar c := by
  unfold lowerChar asciiUpper
  split_ifs <;> omega

theorem lowerChar_lowerChar (c : Nat) : lowerChar (lowerChar c) = lowerChar c := by
  unfold lowerChar
  split_ifs <;> omega

theorem isSpace_asciiUpper (c : Nat) : isSpace (asciiUpper c) = isSpace c := by
  unfold asciiUpper
  split
  · rw [Bool.eq_iff_iff]
    simp only [isSpace, Bool.or_eq_true, decide_eq_true_eq]
    omega
  · rfl

theorem isSpace_lowerChar (c : Nat) : isSpace (lowerChar c) = isSpace c := by
  unfold lowerChar
  split
  · rw [Bool.eq_iff_iff]
    simp only [isSpace, Bool.or_eq_true, decide_eq_true_eq]
    omega
  · rfl

theorem startsWith_iff (s t : Str) : startsWith s t = true ↔ ∃ r, s = t ++ r := by
  induction t generalizing s with
  | nil =>
    simp only [startsWith, List.nil_append, true_iff]
    exact ⟨s, rfl⟩
  | cons d t ih =>
    cases s with
    | nil => simp [startsWith]
    | cons c s =>
      simp only [startsWith, Bool.and_eq_true, beq_iff_eq, ih, List.cons_append,
        List.cons.injEq]
      constructor
      · rintro ⟨rfl, r, rfl⟩
        exact ⟨r, rfl, rfl⟩
      · rintro ⟨r, rfl, hr⟩
        exact ⟨rfl, r, hr⟩

theorem hasSubstr_iff (s t : Str) : hasSubstr s t = true ↔ substrOf t s := by
  unfold substrOf
  induction s with
  | nil =>
    simp only [hasSubstr, List.isEmpty_iff]
    constructor
    · rintro rfl
      exact ⟨[], [], rfl⟩
    · rintro ⟨p, r, hp⟩
      have h2 : p ++ t ++ r = [] := hp.symm
      simp only [List.append_eq_nil] at h2
      exact h2.1.2
  | cons c s ih =>
    simp only [hasSubstr, Bool.or_eq_true, startsWith_iff, ih]
    constructor
    · rintro (⟨r, hr⟩ | ⟨p, r, hr⟩)
      · exact ⟨[], r, by simpa using hr⟩
      · exact ⟨c :: p, r, by simp [hr]⟩
    · rintro ⟨p, r, hr⟩
      cases p with
      | nil => exact Or.inl ⟨r, by simpa using hr⟩
      | cons x p =>
        simp only [List.cons_append, List.cons.injEq] at hr
        exact Or.inr ⟨p, r, hr.2⟩

instance (t s : Str) : Decidable (substrOf t s) :=
  decidable_of_iff (hasSubstr s t = true) (hasSubstr_iff s t)

theorem splitWs_cons_space {c : Nat} (s : Str) (hc : isSpace c = true) :
    splitWs (c :: s) = splitWs s := by
  cases s with
  | nil => simp [splitWs, hc]
  | cons d s => simp [splitWs, hc]

theorem splitWs_tokens (s : Str) :
    ∀ t ∈ splitWs s, t ≠ [] ∧ ∀ x ∈ t, isSpace x = false ∧ x ∈ s := by
  induction s with
  | nil => intro t ht; simp [splitWs] at ht
  | cons c s ih =>
    cases s with
    | nil =>
      intro t ht
      cases hc : isSpace c with
      | true => simp [splitWs, hc] at ht
      | false =>
        simp only [splitWs, hc, Bool.false_eq_true, if_false, List.mem_singleton] at ht
        subst ht
        refine ⟨by simp, ?_⟩
        intro x hx
        simp only [List.mem_singleton] at hx
        subst hx
        exact ⟨hc, by simp⟩
    | cons d s' =>
      intro t ht
      cases hc : isSpace c with
      | true =>
        rw [splitWs_cons_space _ hc] at ht
        obtain ⟨h1, h2⟩ := ih t ht
        exact ⟨h1, fun x hx => ⟨(h2 x hx).1, List.mem_cons_of_mem _ (h2 x hx).2⟩⟩
      | false =>
        cases hd : isSpace d with
        | true =>
          simp only [splitWs, hc, hd, Bool.false_eq_true, if_false, if_true,
            List.mem_cons] at ht
          rcases ht with rfl | ht
          · refine ⟨by simp, ?_⟩
            intro x hx
            simp only [List.mem_singleton] at hx
            subst hx
            exact ⟨hc, by simp⟩
          · obtain ⟨h1, h2⟩ := ih t ht
            exact ⟨h1, fun x hx => ⟨(h2 x hx).1, List.mem_cons_of_mem _ (h2 x hx).2⟩⟩
        | false =>
          simp only [splitWs, hc, hd, Bool.false_eq_true, if_false] at ht
          cases hsp : splitWs (d :: s') with
          | nil =>
            rw [hsp] at ht
            simp only [List.mem_singleton] at ht
            subst ht
            refine ⟨by simp, ?_⟩
            intro x hx
            simp only [List.mem_singleton] at hx
            subst hx
            exact ⟨hc, by simp⟩
          | cons t0 ts =>
            rw [hsp] at ht
            simp only [List.mem_cons] at ht
            rcases ht with rfl | ht
            · have h0 := ih t0 (by rw [hsp]; exact List.mem_cons_self _ _)
              refine ⟨by simp, ?_⟩
              intro x hx
              rcases List.mem_cons.mp hx with rfl | hx
              · exact ⟨hc, by simp⟩
              · exact ⟨(h0.2 x hx).1, List.mem_cons_of_mem _ (h0.2 x hx).2⟩
            · have h0 := ih t (by rw [hsp]; exact List.mem_cons_of_mem _ ht)
              exact ⟨h0.1, fun x hx => ⟨(h0.2 x hx).1, List.mem_cons_of_mem _ (h0.2 x hx).2⟩⟩

theorem splitWs_all_space (s : Str) (h : ∀ c ∈ s, isSpace c = true) :
    splitWs s = [] := by
  induction s with
  | nil => rfl
  | cons c s ih =>
    rw [splitWs_cons_space s (h c (List.mem_cons_self _ _))]
    exact ih fun x hx => h x (List.mem_cons_of_mem _ hx)

end SimpleSearch

namespace SimpleSearch

theorem splitWs_token_append (r : Str) :
    ∀ t : Str, t ≠ [] → (∀ x ∈ t, isSpace x = false) →
      splitWs (t ++ 32 :: r) = t :: splitWs r := by
  intro t
  induction t with
  | nil => intro h _; cases h rfl
  | cons c t ih =>
    intro _ hns
    have hc : isSpace c = false := hns c (List.mem_cons_self _ _)
    have h32 : isSpace 32 = true := by decide
    cases t with
    | nil =>
      have h1 : splitWs (c :: 32 :: r) = [c] :: splitWs (32 :: r) := by
        simp [splitWs, hc, h32]
      simp only [List.cons_append, List.nil_append, h1,
        splitWs_cons_space r h32]
    | cons c2 t2 =>
      have hc2 : isSpace c2 = false := hns c2 (by simp)
      have hi := ih (by simp) fun x hx => hns x (List.mem_cons_of_mem _ hx)
      simp only [List.cons_append] at hi ⊢
      simp only [splitWs, hc, hc2, Bool.false_eq_true, if_false, hi]

theorem splitWs_single :
    ∀ t : Str, t ≠ [] → (∀ x ∈ t, isSpace x = false) → splitWs t = [t] := by
  intro t
  induction t with
  | nil => intro h _; cases h rfl
  | cons c t ih =>
    intro _ hns
    have hc : isSpace c = false := hns c (List.mem_cons_self _ _)
    cases t with
    | nil => simp [splitWs, hc]
    | cons c2 t2 =>
      have hc2 : isSpace c2 = false := hns c2 (by simp)
      have hi := ih (by simp) fun x hx => hns x (List.mem_cons_of_mem _ hx)
      simp only [splitWs, hc, hc2, Bool.false_eq_true, if_false, hi]

theorem splitWs_joinSp (ts : List Str)
    (h : ∀ t ∈ ts, t ≠ [] ∧ ∀ x ∈ t, isSpace x = false) :
    splitWs (joinSp ts) = ts := by
  induction ts with
  | nil => rfl
  | cons t ts ih =>
    cases ts with
    | nil =>
      have ht := h t (List.mem_cons_self _ _)
      simpa [joinSp] using splitWs_single t ht.1 ht.2
    | cons t2 ts2 =>
      have ht := h t (List.mem_cons_self _ _)
      have hj : joinSp (t :: t2 :: ts2) = t ++ 32 :: joinSp (t2 :: ts2) := rfl
      rw [hj, splitWs_token_append _ t ht.1 ht.2,
        ih fun u hu => h u (List.mem_cons_of_mem _ hu)]

end SimpleSearch

namespace SimpleSearch

theorem map_eq_self_of {f : Nat → Nat} :
    ∀ l : Str, (∀ x ∈ l, f x = x) → l.map f = l := by
  intro l
  induction l with
  | nil => intro _; rfl
  | cons c l ih =>
    intro h
    simp only [List.map_cons, h c (List.mem_cons_self _ _),
      ih fun x hx => h x (List.mem_cons_of_mem _ hx)]

theorem joinSp_concat (ts : List Str) (hne : ts ≠ [])
    (h : ∀ t ∈ ts, t ≠ [] ∧ ∀ x ∈ t, isSpace x = false) :
    ∃ y c, joinSp ts = y ++ [c] ∧ isSpace c = false := by
  induction ts with
  | nil => cases hne rfl
  | cons t ts ih =>
    cases ts with
    | nil =>
      obtain ⟨hne', hns⟩ := h t (List.mem_cons_self _ _)
      refine ⟨t.dropLast, t.getLast hne', ?_, hns _ (List.getLast_mem hne')⟩
      simpa [joinSp] using (List.dropLast_append_getLast hne').symm
    | cons t2 ts2 =>
      obtain ⟨y, cl, hy, hcl⟩ := ih (by simp) fun u hu => h u (List.mem_cons_of_mem _ hu)
      refine ⟨t ++ 32 :: y, cl, ?_, hcl⟩
      have hj : joinSp (t :: t2 :: ts2) = t ++ 32 :: joinSp (t2 :: ts2) := rfl
      simp [hj, hy]

theorem strip_joinSp (ts : List Str)
    (h : ∀ t ∈ ts, t ≠ [] ∧ ∀ x ∈ t, isSpace x = false) :
    strip (joinSp ts) = joinSp ts := by
  cases hts : ts with
  | nil => rfl
  | cons t ts' =>
    subst hts
    obtain ⟨htne, htns⟩ := h t (List.mem_cons_self _ _)
    obtain ⟨c, t', rfl⟩ : ∃ c t2, t = c :: t2 := by
      cases t with
      | nil => cases htne rfl
      | cons c t2 => exact ⟨c, t2, rfl⟩
    have hc : isSpace c = false := htns c (List.mem_cons_self _ _)
    have hhead : ∃ z, joinSp ((c :: t') :: ts') = c :: z := by
      cases ts' with
      | nil => exact ⟨t', rfl⟩
      | cons u us => exact ⟨t' ++ 32 :: joinSp (u :: us), rfl⟩
    obtain ⟨z, hz⟩ := hhead
    have hdw : (joinSp ((c :: t') :: ts')).dropWhile isSpace = joinSp ((c :: t') :: ts') := by
      rw [hz, List.dropWhile_cons]
      simp [hc]
    obtain ⟨y, cl, hy, hcl⟩ := joinSp_concat _ (by simp) h
    unfold strip rstripWs
    rw [hdw, hy]
    simp [List.dropWhile_cons, hcl]

theorem lowerStr_joinSp (ts : List Str)
    (h : ∀ t ∈ ts, ∀ x ∈ t, lowerChar x = x) :
    lowerStr (joinSp ts) = joinSp ts := by
  induction ts with
  | nil => rfl
  | cons t ts ih =>
    cases ts with
    | nil =>
      simpa [joinSp, lowerStr] using map_eq_self_of t (h t (List.mem_cons_self _ _))
    | cons t2 ts2 =>
      have hj : joinSp (t :: t2 :: ts2) = t ++ 32 :: joinSp (t2 :: ts2) := rfl
      have hl32 : lowerChar 32 = 32 := by decide
      have hih := ih fun u hu => h u (List.mem_cons_of_mem _ hu)
      simp only [lowerStr] at hih ⊢
      simp [hj, map_eq_self_of t (h t (List.mem_cons_self _ _)), hl32, hih]

theorem tokenize_tokens (q : Str) :
    ∀ t ∈ tokenize q, t ≠ [] ∧ ∀ x ∈ t, isSpace x = false ∧ lowerChar x = x := by
  intro t ht
  have hmem : t ∈ splitWs (qCanonical q) := List.mem_of_mem_filter ht
  obtain ⟨h1, h2⟩ := splitWs_tokens _ t hmem
  refine ⟨h1, fun x hx => ⟨(h2 x hx).1, ?_⟩⟩
  have hxq : x ∈ qCanonical q := (h2 x hx).2
  obtain ⟨y, _, rfl⟩ := List.mem_map.mp hxq
  exact lowerChar_lowerChar y

end SimpleSearch

namespace SimpleSearch

theorem dropWhile_isSpace_eq_nil (q : Str) (h : ∀ c ∈ q, isSpace c = true) :
    q.dropWhile isSpace = [] := by
  induction q with
  | nil => rfl
  | cons c q ih =>
    rw [List.dropWhile_cons, if_pos (h c (List.mem_cons_self _ _))]
    exact ih fun x hx => h x (List.mem_cons_of_mem _ hx)

theorem qCanonical_all_space (q : Str) (h : ∀ c ∈ q, isSpace c = true) :
    qCanonical q = [] := by
  unfold qCanonical strip
  rw [dropWhile_isSpace_eq_nil q h]
  rfl

theorem tokenize_of_qCanonical_nil {q : Str} (h : qCanonical q = []) :
    tokenize q = [] := by
  unfold tokenize
  rw [h]
  rfl

theorem map_eq_map_of {f g : Nat → Nat} (h : ∀ x, f x = g x) :
    ∀ l : Str, l.map f = l.map g := by
  intro l
  induction l with
  | nil => rfl
  | cons c l ih => simp [h c, ih]

theorem dropWhile_isSpace_map (f : Nat → Nat) (hf : ∀ c, isSpace (f c) = isSpace c) :
    ∀ l : Str, (l.map f).dropWhile isSpace = (l.dropWhile isSpace).map f := by
  intro l
  induction l with
  | nil => rfl
  | cons c l ih =>
    simp only [List.map_cons, List.dropWhile_cons, hf c]
    cases hc : isSpace c with
    | true => simpa using ih
    | false => simp

theorem strip_map (f : Nat → Nat) (hf : ∀ c, isSpace (f c) = isSpace c) (l : Str) :
    strip (l.map f) = (strip l).map f := by
  unfold strip rstripWs
  rw [dropWhile_isSpace_map f hf l, ← List.map_reverse,
    dropWhile_isSpace_map f hf, List.map_reverse]

theorem upperStr_ascii :
    ∀ q : Str, (∀ c ∈ q, c < 128) → upperStr q = q.map asciiUpper := by
  intro q
  induction q with
  | nil => intro _; rfl
  | cons c q ih =>
    intro h
    have hc : upperChar c = [asciiUpper c] := by
      have h128 : c < 128 := h c (List.mem_cons_self _ _)
      unfold upperChar asciiUpper
      split_ifs <;> first | rfl | omega
    have hq := ih fun x hx => h x (List.mem_cons_of_mem _ hx)
    simp only [upperStr, List.map_cons, List.flatten_cons] at hq ⊢
    rw [hc, hq]
    rfl

theorem qCanonical_asciiUpper (q : Str) :
    qCanonical (q.map asciiUpper) = qCanonical q := by
  unfold qCanonical lowerStr
  rw [strip_map asciiUpper isSpace_asciiUpper, List.map_map]
  exact map_eq_map_of (fun x => lowerChar_asciiUpper x) _

theorem qCanonical_lowerStr (q : Str) : qCanonical (lowerStr q) = qCanonical q := by
  unfold qCanonical lowerStr
  rw [strip_map lowerChar isSpace_lowerChar, List.map_map]
  exact map_eq_map_of (fun x => lowerChar_lowerChar x) _

theorem search_messages_congr (index : List Entry) {q1 q2 : Str}
    (h : qCanonical q1 = qCanonical q2) :
    search_messages index q1 = search_messages index q2 := by
  unfold search_messages tokenize
  rw [h]

end SimpleSearch

namespace SimpleSearch

theorem search_foldl (p : Entry → Bool) :
    ∀ (l : List Entry) (acc : List Raw),
      l.foldl (fun results entry =>
          if p entry then results ++ [entry.raw] else results) acc
        = acc ++ (l.filter p).map Entry.raw := by
  intro l
  induction l with
  | nil => intro acc; simp
  | cons e l ih =>
    intro acc
    simp only [List.foldl_cons, List.filter_cons]
    cases hp : p e with
    | false => simp [hp, ih acc]
    | true => simp [hp, ih (acc ++ [e.raw])]

theorem tokenize_ne_nil_qCanonical {q : Str} (h : tokenize q ≠ []) :
    ¬ qCanonical q = [] :=
  fun hq => h (tokenize_of_qCanonical_nil hq)

theorem search_messages_filter (index : List Entry) (q : Str)
    (h : tokenize q ≠ []) :
    search_messages index q
      = (index.filter fun e =>
          (tokenize q).all fun t => hasSubstr e.search_text t).map Entry.raw := by
  unfold search_messages
  rw [if_neg (tokenize_ne_nil_qCanonical h)]
  simpa using search_foldl
    (fun e => (tokenize q).all fun t => hasSubstr e.search_text t) index []

theorem paginate_join (ps : Nat) :
    ∀ (N : Nat) (results : List Raw), results.length ≤ N * ps →
      ((List.range N).map fun i => paginate results (i + 1) ps).flatten = results := by
  intro N
  induction N with
  | zero =>
    intro results h
    have h0 : results = [] := by
      cases results with
      | nil => rfl
      | cons r rs => simp at h
    simp [h0]
  | succ N ih =>
    intro results h
    rw [List.range_succ_eq_map]
    simp only [List.map_cons, List.map_map]
    have h1 : paginate results (0 + 1) ps = results.take ps := by
      simp [paginate]
    have h2 : (List.range N).map ((fun i => paginate results (i + 1) ps) ∘ Nat.succ)
        = (List.range N).map fun i => paginate (results.drop ps) (i + 1) ps := by
      apply List.map_congr_left
      intro i _
      simp only [Function.comp_apply, paginate, Nat.succ_sub_one, List.drop_drop]
      congr 2
      rw [Nat.succ_mul, Nat.add_comm]
    have h3 : (results.drop ps).length ≤ N * ps := by
      rw [List.length_drop]
      rw [Nat.succ_mul] at h
      exact Nat.sub_le_iff_le_add.mpr h
    rw [h1, h2, List.flatten_cons, ih (results.drop ps) h3, List.take_append_drop]

theorem paginate_out_of_range (results : List Raw) (p ps : Nat)
    (h : results.length ≤ (p - 1) * ps) : paginate results p ps = [] := by
  unfold paginate
  rw [List.drop_eq_nil_of_le h, List.take_nil]

end SimpleSearch

namespace SimpleSearch

theorem natChars_ne_nil (n : Nat) : natChars n ≠ [] := by
  unfold natChars
  split
  · simp
  · next hn =>
    obtain ⟨m, rfl⟩ : ∃ m, n = m + 1 := ⟨n - 1, by omega⟩
    simp [natCharsAux]

theorem intChars_ne_nil (i : Int) : intChars i ≠ [] := by
  unfold intChars
  split
  · simp
  · exact natChars_ne_nil _

theorem pyStr_ne_nil (v : JVal) (h : ∀ s, v ≠ JVal.str s) : pyStr v ≠ [] := by
  cases v with
  | str s => exact absurd rfl (h s)
  | null => simp [pyStr, pyRepr, pyChars]
  | bool b => cases b <;> simp [pyStr, pyRepr, pyChars]
  | num n => exact intChars_ne_nil n
  | arr es => simp [pyStr, pyRepr]
  | obj fs => simp [pyStr, pyRepr]

end SimpleSearch

namespace SimpleSearch

/-- Claim C1: for every index and every query whose tokenization yields at
least one token, `search_messages` returns exactly the `raw` records of the
entries whose `search_text` contains every token as a substring, in index
order, and the output is a subsequence of the index's build order. -/
theorem claim_C1_search (index : List Entry) (q : Str) (h : tokenize q ≠ []) :
    search_messages index q
      = (index.filter fun e =>
          decide (∀ t ∈ tokenize q, substrOf t e.search_text)).map Entry.raw
    ∧ List.Sublist (search_messages index q) (index.map Entry.raw) := by
  have hpred : (fun e : Entry => (tokenize q).all fun t => hasSubstr e.search_text t)
      = fun e => decide (∀ t ∈ tokenize q, substrOf t e.search_text) := by
    funext e
    rw [Bool.eq_iff_iff]
    simp only [List.all_eq_true, decide_eq_true_eq]
    exact ⟨fun ha t ht => (hasSubstr_iff _ _).mp (ha t ht),
           fun ha t ht => (hasSubstr_iff _ _).mpr (ha t ht)⟩
  constructor
  · rw [search_messages_filter index q h, hpred]
  · rw [search_messages_filter index q h]
    exact List.Sublist.map _ (List.filter_sublist index)

/-- Witness for C1 on the one-record scenario index and a two-token query. -/
theorem claim_C1_search_witness :
    tokenize (pyChars ("PARIS book")) ≠ []
    ∧ (search_messages sophiaIndex (pyChars ("PARIS book"))
        = (sophiaIndex.filter fun e =>
            decide (∀ t ∈ tokenize (pyChars ("PARIS book")), substrOf t e.search_text)).map
            Entry.raw
       ∧ List.Sublist (search_messages sophiaIndex (pyChars ("PARIS book")))
          (sophiaIndex.map Entry.raw)) :=
  ⟨by decide, claim_C1_search sophiaIndex (pyChars ("PARIS book")) (by decide)⟩

/-- Claim C2: for string-valued (or missing) fields, the derived search text
is the lowercase of `user_name`, one space, and `message`; a missing key
contributes the empty string (the default of `.get`), and the derivation is
a total function. -/
theorem claim_C2_search_text (msg : Raw) (u m : Str)
    (hu : pyGet msg unameKey (JVal.str []) = JVal.str u)
    (hm : pyGet msg messageKey (JVal.str []) = JVal.str m) :
    extract_searchable_text msg = lowerStr (u ++ 32 :: m) := by
  unfold extract_searchable_text
  rw [hu, hm]
  rfl

/-- Witness for C2 on a record with no `user_name` key. -/
theorem claim_C2_search_text_witness :
    pyGet helloRaw unameKey (JVal.str []) = JVal.str []
    ∧ pyGet helloRaw messageKey (JVal.str []) = JVal.str (pyChars ("Hello"))
    ∧ extract_searchable_text helloRaw = lowerStr ([] ++ 32 :: pyChars ("Hello")) :=
  ⟨rfl, rfl, claim_C2_search_text helloRaw [] (pyChars ("Hello")) rfl rfl⟩

/-- Claim C3, counterexample: a mapping whose `items` value is not a
sequence does not cause a `ShapeError`; the code accepts it and uses the
non-sequence value. -/
theorem claim_C3_counterexample :
    normalize_messages (JVal.obj [(itemsKey, JVal.num 5)]) = Except.ok (JVal.num 5)
    ∧ isSeq (JVal.num 5) = false :=
  ⟨rfl, rfl⟩

/-- Claim C3, amended: a sequence is used as-is; a mapping with an `items`
key yields that key's value whether or not it is a sequence; only a value
that is neither a sequence nor a mapping with an `items` key fails with a
`ShapeError` naming the top-level type. -/
theorem claim_C3_amended (data : JVal) :
    normalize_messages data = normalizeAmendedSpec data := by
  cases data with
  | obj fields =>
    simp only [normalize_messages, normalizeAmendedSpec, isSeq, itemsValue,
      Bool.false_eq_true, if_false]
  | arr es => rfl
  | null => rfl
  | bool b => rfl
  | num n => rfl
  | str s => rfl

/-- Claim C4: if any step of the fetch-and-build fails, the index is left in
its previous state; on success the new index is independent of the previous
one (a wholesale replacement).  The raised error never depends on the
previous state either. -/
theorem claim_C4_atomic (fetched : Except PyErr JVal) (old : List Entry) :
    (load_messages_into_index fetched old).2 = (load_messages_into_index fetched []).2
    ∧ (load_messages_into_index fetched old).1
      = (if ((load_messages_into_index fetched []).2).isNone
         then (load_messages_into_index fetched []).1 else old) := by
  cases fetched with
  | error e => simp [load_messages_into_index]
  | ok data =>
    cases hb : build_from data with
    | error e => simp [load_messages_into_index, hb]
    | ok entries => simp [load_messages_into_index, hb]
end SimpleSearch

namespace SimpleSearch

/-- Claim C5: for validated parameters, the `/search` handler returns 503
exactly when the index is empty, and otherwise a 200 body whose `total` is
the size of the full unpaginated result set — independent of `page` and
`page_size` — and whose `items` are the requested page. -/
theorem claim_C5_handler (index : List Entry) (q : Str) (page pageSize : Nat)
    (_hq : q ≠ []) (_hp : 1 ≤ page) (_hps1 : 1 ≤ pageSize) (_hps2 : pageSize ≤ 100) :
    (search_handler index q page pageSize = Except.error 503 ↔ index = [])
    ∧ (index ≠ [] → search_handler index q page pageSize
        = Except.ok ⟨q, (search_messages index q).length, page, pageSize,
                     paginate (search_messages index q) page pageSize⟩) := by
  cases index with
  | nil => exact ⟨⟨fun _ => rfl, fun _ => rfl⟩, fun hne => absurd rfl hne⟩
  | cons e es =>
    refine ⟨⟨fun he => ?_, fun hn => ?_⟩, fun _ => rfl⟩
    · exact absurd he (by simp [search_handler])
    · cases hn

/-- Witness for C5 on the non-empty scenario index. -/
theorem claim_C5_handler_witness :
    sophiaIndex ≠ []
    ∧ search_handler sophiaIndex (pyChars ("paris")) 1 10
        = Except.ok ⟨pyChars ("paris"),
            (search_messages sophiaIndex (pyChars ("paris"))).length, 1, 10,
            paginate (search_messages sophiaIndex (pyChars ("paris"))) 1 10⟩ := by
  have hne : sophiaIndex ≠ [] := by simp [sophiaIndex]
  exact ⟨hne,
    (claim_C5_handler sophiaIndex (pyChars ("paris")) 1 10
      (by decide) (by decide) (by decide) (by decide)).2 hne⟩

/-- Claim C6: with any fixed page size, concatenating enough pages in order
reconstructs the result set exactly (later pages are empty), and any page
at least 1 that starts beyond the end yields an empty slice, not an error. -/
theorem claim_C6_pagination (results : List Raw) (ps : Nat) (_hps : 1 ≤ ps) :
    (∀ N, results.length ≤ N * ps →
        ((List.range N).map fun i => paginate results (i + 1) ps).flatten = results)
    ∧ (∀ p, 1 ≤ p → results.length ≤ (p - 1) * ps → paginate results p ps = []) :=
  ⟨fun N h => paginate_join ps N results h,
   fun p _ h => paginate_out_of_range results p ps h⟩

/-- Witness for C6: five records, page size 2, three pages reconstruct the
list and page 4 is empty. -/
theorem claim_C6_pagination_witness :
    (1 : Nat) ≤ 2
    ∧ ((List.range 3).map fun i =>
        paginate [sophiaRaw, helloRaw, oddRaw, sophiaRaw, helloRaw] (i + 1) 2).flatten
      = [sophiaRaw, helloRaw, oddRaw, sophiaRaw, helloRaw]
    ∧ paginate [sophiaRaw, helloRaw, oddRaw, sophiaRaw, helloRaw] 4 2 = [] :=
  ⟨by decide,
   (claim_C6_pagination [sophiaRaw, helloRaw, oddRaw, sophiaRaw, helloRaw] 2
      (by decide)).1 3 (by decide),
   (claim_C6_pagination [sophiaRaw, helloRaw, oddRaw, sophiaRaw, helloRaw] 2
      (by decide)).2 4 (by decide) (by decide)⟩

/-- Claim C7, counterexample: Python's full case mapping expands U+00DF to
`SS`, so on an index whose search text contains the sharp s, the query
consisting of that one codepoint matches while its uppercased form does
not — `search(index, q)` and `search(index, uppercase(q))` differ. -/
theorem claim_C7_counterexample :
    upperStr [223] = [83, 83]
    ∧ search_messages eszIndex [223] = [eszRaw]
    ∧ search_messages eszIndex (upperStr [223]) = []
    ∧ search_messages eszIndex [223] ≠ search_messages eszIndex (upperStr [223]) := by
  have h2 : search_messages eszIndex [223] = [eszRaw] := rfl
  have h3 : search_messages eszIndex (upperStr [223]) = [] := rfl
  refine ⟨rfl, h2, h3, ?_⟩
  rw [h2, h3]
  simp

/-- Claim C7, amended: for every index and every query all of whose
codepoints are ASCII, search of the query, of its uppercased form and of
its lowercased form return equal result sequences. -/
theorem claim_C7_amended (index : List Entry) (q : Str)
    (h : ∀ c ∈ q, c < 128) :
    search_messages index (upperStr q) = search_messages index q
    ∧ search_messages index (lowerStr q) = search_messages index q := by
  refine ⟨?_, search_messages_congr index (qCanonical_lowerStr q)⟩
  rw [upperStr_ascii q h]
  exact search_messages_congr index (qCanonical_asciiUpper q)

/-- Witness for the amended C7 on an all-ASCII mixed-case query. -/
theorem claim_C7_amended_witness :
    (∀ c ∈ pyChars ("Paris"), c < 128)
    ∧ (search_messages sophiaIndex (upperStr (pyChars ("Paris")))
        = search_messages sophiaIndex (pyChars ("Paris"))
       ∧ search_messages sophiaIndex (lowerStr (pyChars ("Paris")))
        = search_messages sophiaIndex (pyChars ("Paris"))) :=
  ⟨by decide, claim_C7_amended sophiaIndex (pyChars ("Paris")) (by decide)⟩

/-- Claim C8: an empty or all-whitespace query tokenizes to zero tokens and
search returns the empty sequence via the early return, for any index. -/
theorem claim_C8_empty_query (index : List Entry) (q : Str)
    (h : ∀ c ∈ q, isSpace c = true) :
    tokenize q = [] ∧ search_messages index q = [] := by
  have hq := qCanonical_all_space q h
  refine ⟨tokenize_of_qCanonical_nil hq, ?_⟩
  unfold search_messages
  rw [if_pos hq]

/-- Witness for C8 on a three-space query and the non-empty scenario index. -/
theorem claim_C8_empty_query_witness :
    (∀ c ∈ pyChars ("   "), isSpace c = true)
    ∧ tokenize (pyChars ("   ")) = []
    ∧ search_messages sophiaIndex (pyChars ("   ")) = [] :=
  ⟨by decide,
   (claim_C8_empty_query sophiaIndex (pyChars ("   ")) (by decide)).1,
   (claim_C8_empty_query sophiaIndex (pyChars ("   ")) (by decide)).2⟩

/-- Claim C9: tokenize is idempotent — rejoining the tokens with single
spaces and tokenizing again yields the same token sequence. -/
theorem claim_C9_tokenize_idem (q : Str) :
    tokenize (joinSp (tokenize q)) = tokenize q := by
  have h := tokenize_tokens q
  have hgood : ∀ t ∈ tokenize q, t ≠ [] ∧ ∀ x ∈ t, isSpace x = false :=
    fun t ht => ⟨(h t ht).1, fun x hx => ((h t ht).2 x hx).1⟩
  have hlow : ∀ t ∈ tokenize q, ∀ x ∈ t, lowerChar x = x :=
    fun t ht x hx => ((h t ht).2 x hx).2
  calc tokenize (joinSp (tokenize q))
      = (splitWs (lowerStr (strip (joinSp (tokenize q))))).filter
          (fun t => t ≠ []) := rfl
    _ = (splitWs (lowerStr (joinSp (tokenize q)))).filter (fun t => t ≠ []) := by
        rw [strip_joinSp _ hgood]
    _ = (splitWs (joinSp (tokenize q))).filter (fun t => t ≠ []) := by
        rw [lowerStr_joinSp _ hlow]
    _ = (tokenize q).filter (fun t => t ≠ []) := by
        rw [splitWs_joinSp _ hgood]
    _ = tokenize q :=
        List.filter_eq_self.mpr fun a ha => decide_eq_true (hgood a ha).1

/-- Claim C10: a present but non-string `user_name` or `message` value is
neither an error nor an empty contribution: its Python string
representation enters the search text (lowercased with the rest). -/
theorem claim_C10_nonstring (msg : Raw) (v w : JVal)
    (hu : pyGet msg unameKey (JVal.str []) = v)
    (hm : pyGet msg messageKey (JVal.str []) = w) :
    extract_searchable_text msg = lowerStr (pyStr v ++ 32 :: pyStr w)
    ∧ ((∀ s, v ≠ JVal.str s) → pyStr v ≠ [])
    ∧ ((∀ s, w ≠ JVal.str s) → pyStr w ≠ []) := by
  refine ⟨?_, fun hv => pyStr_ne_nil v hv, fun hw => pyStr_ne_nil w hw⟩
  unfold extract_searchable_text
  rw [hu, hm]

/-- Witness for C10 on a record whose fields hold an integer and null. -/
theorem claim_C10_nonstring_witness :
    pyGet oddRaw unameKey (JVal.str []) = JVal.num 42
    ∧ pyGet oddRaw messageKey (JVal.str []) = JVal.null
    ∧ extract_searchable_text oddRaw
        = lowerStr (pyStr (JVal.num 42) ++ 32 :: pyStr JVal.null)
    ∧ pyStr (JVal.num 42) ≠ []
    ∧ pyStr JVal.null ≠ [] := by
  have h := claim_C10_nonstring oddRaw (JVal.num 42) JVal.null rfl rfl
  exact ⟨rfl, rfl, h.1, h.2.1 (fun s hs => nomatch hs), h.2.2 (fun s hs => nomatch hs)⟩

end SimpleSearch
